import Mathlib

/-!
Shallow embedding of `scriptsnoop.py`, a static pattern-matching scanner.
Lines of text are modelled as `List Char`.  The per-line matching of
`scan_file` (comment skip, raw pass, de-quoted pass), the quote stripper
`re.sub` on line 64, and the pattern catalog `RISKY_PATTERNS` are embedded
as executable Lean definitions, and the specification's testable properties
are proved or refuted against them.
-/

namespace Scriptsnoop

/-- Double-quote character, written via its code point to keep source clean. -/
def dqc : Char := Char.ofNat 34

/-- Single-quote character. -/
def sqc : Char := Char.ofNat 39

/-- Backtick character. -/
def btc : Char := Char.ofNat 96

/-- The three quote delimiters handled by the quote stripper on line 64:
double quote, single quote, backtick, in the order of the alternation
`"[^"]*"|'[^']*'|`[^`]*``. -/
def quoteChars : List Char := [dqc, sqc, btc]

/-- ASCII whitespace stripped by Python `str.strip()` and matched by `\s`. -/
def pyIsSpace (c : Char) : Bool :=
  c = ' ' || c = '\t' || c = '\n' || c = '\r' || c = '\x0b' || c = '\x0c'

/-- Python `str.strip()`: drop leading and trailing whitespace. -/
def pyStrip (s : List Char) : List Char :=
  ((s.dropWhile pyIsSpace).reverse.dropWhile pyIsSpace).reverse

/-- The comment test of line 48: `re.match(r'^\s*(#|//|/\*)', line)` —
after optional leading whitespace the line starts with `#`, `//` or `/*`. -/
def isComment (s : List Char) : Bool :=
  let t := s.dropWhile pyIsSpace
  List.isPrefixOf ['#'] t || List.isPrefixOf ['/', '/'] t ||
    List.isPrefixOf ['/', '*'] t

/-! ## A small regular-expression engine

Just enough of Python `re` to give semantics to the patterns of
`RISKY_PATTERNS`: literal characters, character classes and their
complements (`.` is the complement of newline, `\s` a class),
concatenation, alternation and Kleene star, matched by Brzozowski
derivatives.  `re.search` is full-match against `Σ* r Σ*`. -/

inductive Regex where
  | emp : Regex
  | eps : Regex
  | cls (cs : List Char) : Regex
  | ncls (cs : List Char) : Regex
  | cat (r1 r2 : Regex) : Regex
  | alt (r1 r2 : Regex) : Regex
  | star (r : Regex) : Regex
deriving Repr, DecidableEq

/-- Does the regex accept the empty string? -/
def Regex.nullable : Regex → Bool
  | .emp => false
  | .eps => true
  | .cls _ => false
  | .ncls _ => false
  | .cat r1 r2 => r1.nullable && r2.nullable
  | .alt r1 r2 => r1.nullable || r2.nullable
  | .star _ => true

/-- Smart concatenation, keeping derivative terms small. -/
def Regex.mkCat : Regex → Regex → Regex
  | .emp, _ => .emp
  | _, .emp => .emp
  | .eps, r => r
  | r, .eps => r
  | r1, r2 => .cat r1 r2

/-- Smart alternation, keeping derivative terms small. -/
def Regex.mkAlt : Regex → Regex → Regex
  | .emp, r => r
  | r, .emp => r
  | r1, r2 => if r1 = r2 then r1 else .alt r1 r2

/-- Brzozowski derivative with respect to one character. -/
def Regex.deriv (c : Char) : Regex → Regex
  | .emp => .emp
  | .eps => .emp
  | .cls cs => if c ∈ cs then .eps else .emp
  | .ncls cs => if c ∈ cs then .emp else .eps
  | .cat r1 r2 =>
      if r1.nullable then .mkAlt (.mkCat (r1.deriv c) r2) (r2.deriv c)
      else .mkCat (r1.deriv c) r2
  | .alt r1 r2 => .mkAlt (r1.deriv c) (r2.deriv c)
  | .star r => .mkCat (r.deriv c) (.star r)

/-- Full match of a regex against a character list. -/
def Regex.fullMatch (r : Regex) (s : List Char) : Bool :=
  (s.foldl (fun r c => r.deriv c) r).nullable

/-- Any single character (used for the `Σ*` padding of `search`). -/
def Regex.anyChar : Regex := .ncls []

/-- Python `re.search`: the regex matches some substring. -/
def Regex.found (r : Regex) (s : List Char) : Bool :=
  Regex.fullMatch (.cat (.star .anyChar) (.cat r (.star .anyChar))) s

/-- Literal string regex. -/
def rlit (s : String) : Regex :=
  s.data.foldr (fun c r => Regex.mkCat (.cls [c]) r) .eps

/-- Single literal character regex. -/
def rchr (c : Char) : Regex := .cls [c]

/-- Python `\s`. -/
def rws : Regex := .cls [' ', '\t', '\n', '\r', '\x0b', '\x0c']

/-- Python `.` (any character except newline). -/
def rdot : Regex := .ncls ['\n']

/-- Postfix `+`. -/
def rplus (r : Regex) : Regex := .cat r (.star r)

/-- Postfix `?`. -/
def ropt (r : Regex) : Regex := .alt .eps r

/-- Case-insensitive search (`re.IGNORECASE`): patterns are written in
lower case and the subject is lowered before matching. -/
def searchCI (r : Regex) (s : List Char) : Bool :=
  r.found (s.map Char.toLower)

/-! ## The pattern catalog

Each entry of `RISKY_PATTERNS` (lines 9-20 of the source) carries its
`label` — the raw pattern string exactly as it appears in the Python list,
which `scan_file` stores in the `pattern` field of a match — and its
`sig`, the regex translated into the engine above (written lower-case;
`searchCI` lowers the subject, which is how `re.IGNORECASE` is modelled). -/

structure RiskPattern where
  label : String
  sig : Regex
deriving Repr, DecidableEq

/-- Label of the `subprocess` pattern; its `["\']` class contains a quote
spliced in to keep the Lean source free of apostrophes. -/
def subprocessLabel : String :=
  "subprocess\\.(call|Popen|run)\\s*\\(\\s*[\"\\" ++ String.singleton sqc
    ++ "]?\\s*(sudo|rm|chmod|curl)"

/-- The catalog `RISKY_PATTERNS`, in source order. -/
def RISKY_PATTERNS : List RiskPattern :=
  [ ⟨"rm\\s+-rf",
      .cat (rlit "rm") (.cat (rplus rws) (rlit "-rf"))⟩,
    ⟨"curl\\s+.*\\|.*(bash|sh)",
      .cat (rlit "curl") (.cat (rplus rws) (.cat (.star rdot)
        (.cat (rchr '|') (.cat (.star rdot)
          (.alt (rlit "bash") (rlit "sh"))))))⟩,
    ⟨"wget\\s+.*\\|.*(bash|sh)",
      .cat (rlit "wget") (.cat (rplus rws) (.cat (.star rdot)
        (.cat (rchr '|') (.cat (.star rdot)
          (.alt (rlit "bash") (rlit "sh"))))))⟩,
    ⟨"sudo\\s+.*(rm|dd|mkfs|chmod)",
      .cat (rlit "sudo") (.cat (rplus rws) (.cat (.star rdot)
        (.alt (rlit "rm") (.alt (rlit "dd")
          (.alt (rlit "mkfs") (rlit "chmod"))))))⟩,
    ⟨"chmod\\s+777",
      .cat (rlit "chmod") (.cat (rplus rws) (rlit "777"))⟩,
    ⟨"dd\\s+if=/dev/zero",
      .cat (rlit "dd") (.cat (rplus rws) (rlit "if=/dev/zero"))⟩,
    ⟨"os\\.(remove|unlink|rmdir)",
      .cat (rlit "os.") (.alt (rlit "remove")
        (.alt (rlit "unlink") (rlit "rmdir")))⟩,
    ⟨"(requests\\.get|urllib\\.request\\.urlopen)\\s*\\(",
      .cat (.alt (rlit "requests.get") (rlit "urllib.request.urlopen"))
        (.cat (.star rws) (rchr '('))⟩,
    ⟨subprocessLabel,
      .cat (rlit "subprocess.")
        (.cat (.alt (rlit "call") (.alt (rlit "popen") (rlit "run")))
          (.cat (.star rws) (.cat (rchr '(') (.cat (.star rws)
            (.cat (ropt (.cls [dqc, sqc])) (.cat (.star rws)
              (.alt (rlit "sudo") (.alt (rlit "rm")
                (.alt (rlit "chmod") (rlit "curl"))))))))))⟩ ]

/-! ## The quote stripper

Line 64: `re.sub(r'"[^"]*"|\'[^\']*\'|`[^`]*`', '', original_line)`.
`re.sub` scans left to right; at a quote character it matches up to the
first closing quote of the same kind (the class `[^q]*` cannot cross one)
and deletes the region, resuming after it; a quote with no same-kind
closer to its right stays and scanning resumes at the next character. -/

/-- Drop everything up to and including the first occurrence of `c`;
`none` when `c` does not occur. -/
def dropThroughChar (c : Char) : List Char → Option (List Char)
  | [] => none
  | x :: xs => if x = c then some xs else dropThroughChar c xs

/-- Fuel-driven worker for the combined quote-stripping pass; the
recursion consumes a character or jumps past a quoted region each step,
so any fuel at least the length of the input is enough, and with
insufficient fuel the remainder is returned unchanged. -/
def stripQuotesF : Nat → List Char → List Char
  | 0, s => s
  | fuel + 1, s =>
    match s with
    | [] => []
    | c :: rest =>
      if c ∈ quoteChars then
        match dropThroughChar c rest with
        | some after => stripQuotesF fuel after
        | none => c :: stripQuotesF fuel rest
      else c :: stripQuotesF fuel rest

/-- The combined quote-stripping pass of line 64. -/
def stripQuotes (s : List Char) : List Char :=
  stripQuotesF s.length s

/-- Fuel-driven worker for stripping a single delimiter type. -/
def stripOneF (q : Char) : Nat → List Char → List Char
  | 0, s => s
  | fuel + 1, s =>
    match s with
    | [] => []
    | c :: rest =>
      if c = q then
        match dropThroughChar q rest with
        | some after => stripOneF q fuel after
        | none => c :: stripOneF q fuel rest
      else c :: stripOneF q fuel rest

/-- Quote stripping restricted to a single delimiter `q`, the
building block of the specification's per-delimiter-type description. -/
def stripOne (q : Char) (s : List Char) : List Char :=
  stripOneF q s.length s

/-- Modelled from the spec: "each delimiter type is stripped via its own
non-overlapping maximal-match pass", the three passes taken in the order
the delimiters appear in the code's alternation (double quote, single
quote, backtick).  Used only to compare the specification's description
against `stripQuotes`. -/
def stripQuotesSpecIndependent (s : List Char) : List Char :=
  stripOne btc (stripOne sqc (stripOne dqc s))

/-! ## Findings and the per-line scan

`scan_file` (lines 32-77): per line, strip; skip pure comments; a raw
pass over the catalog appending at most one match dict and breaking; a
de-quoted pass over the catalog on `line_no_quotes` appending at most one
match dict with `' (de-quoted)'` added to the pattern and the *original*
line as content. -/

structure Finding where
  file : String
  line : Nat
  pattern : String
  content : List Char
deriving Repr, DecidableEq

/-- The content field: `original_line[:100] + '...' if len(original_line) >
100 else original_line` (the conditional expression wraps the whole
concatenation). -/
def truncateContent (t : List Char) : List Char :=
  if t.length > 100 then t.take 100 ++ ("...".data) else t

/-- The raw pass (lines 52-60): first catalog pattern found anywhere in the
trimmed line, if any, as a one-element list. -/
def rawPassFindings (ps : List RiskPattern) (path : String) (n : Nat)
    (t : List Char) : List Finding :=
  match ps.find? (fun p => searchCI p.sig t) with
  | some p => [⟨path, n, p.label, truncateContent t⟩]
  | none => []

/-- The de-quoted pass (lines 62-73): first catalog pattern found in the
quote-stripped line, reported with a suffixed label and the original
trimmed line as content. -/
def dqPassFindings (ps : List RiskPattern) (path : String) (n : Nat)
    (t : List Char) : List Finding :=
  match ps.find? (fun p => searchCI p.sig (stripQuotes t)) with
  | some p => [⟨path, n, p.label ++ " (de-quoted)", truncateContent t⟩]
  | none => []

/-- One loop iteration of `scan_file` for the line numbered `n`: strip,
skip pure comments, otherwise raw pass then de-quoted pass. -/
def lineFindings (ps : List RiskPattern) (path : String) (n : Nat)
    (line : List Char) : List Finding :=
  let t := pyStrip line
  if isComment t then []
  else rawPassFindings ps path n t ++ dqPassFindings ps path n t

/-- The enumerate-driven loop, starting at line number `start`. -/
def scanLines (ps : List RiskPattern) (path : String) :
    List (List Char) → Nat → List Finding
  | [], _ => []
  | l :: rest, start =>
      lineFindings ps path start l ++ scanLines ps path rest (start + 1)

/-- Findings of a whole successfully read file (`enumerate(f, 1)`). -/
def scanFileLines (ps : List RiskPattern) (path : String)
    (lines : List (List Char)) : List Finding :=
  scanLines ps path lines 1

/-- Outcome of reading a file: every line is yielded, or an exception is
raised after `k` lines were yielded (with `k = 0` for a failure to open). -/
inductive ReadOutcome where
  | ok (lines : List (List Char)) : ReadOutcome
  | failAt (lines : List (List Char)) (k : Nat) : ReadOutcome

/-- The body of `scan_file` (lines 43-77): the `matches` list accumulates
inside the `try`; the `except` arm prints and falls through to
`return matches`, so a read failure returns the findings of the prefix of
lines processed before the exception. -/
def scanFile (ps : List RiskPattern) (path : String) :
    ReadOutcome → List Finding
  | .ok lines => scanFileLines ps path lines
  | .failAt lines k => scanFileLines ps path (lines.take k)

/-- The findings of a scan that carry a given line number. -/
def findingsAtLine (fs : List Finding) (n : Nat) : List Finding :=
  fs.filter (fun f => f.line == n)

/-! ## Lemmas about `dropThroughChar` and the strippers -/

theorem dropThroughChar_sublist {c : Char} :
    ∀ {l after : List Char}, dropThroughChar c l = some after →
      List.Sublist after l := by
  intro l
  induction l with
  | nil => intro after h; simp [dropThroughChar] at h
  | cons x xs ih =>
    intro after h
    rw [dropThroughChar] at h
    by_cases hx : x = c
    · rw [if_pos hx] at h
      cases h
      exact List.sublist_cons_self x xs
    · rw [if_neg hx] at h
      exact (ih h).trans (List.sublist_cons_self x xs)

theorem dropThroughChar_length {c : Char} :
    ∀ {l after : List Char}, dropThroughChar c l = some after →
      after.length < l.length := by
  intro l
  induction l with
  | nil => intro after h; simp [dropThroughChar] at h
  | cons x xs ih =>
    intro after h
    rw [dropThroughChar] at h
    by_cases hx : x = c
    · rw [if_pos hx] at h
      cases h
      exact Nat.lt_succ_self _
    · rw [if_neg hx] at h
      exact Nat.lt_succ_of_lt (ih h)

theorem dropThroughChar_eq_none {c : Char} :
    ∀ {l : List Char}, c ∉ l → dropThroughChar c l = none := by
  intro l
  induction l with
  | nil => intro _; rfl
  | cons x xs ih =>
    intro h
    have hx : x ≠ c := fun he => h (he ▸ List.mem_cons_self x xs)
    rw [dropThroughChar, if_neg hx]
    exact ih (fun hm => h (List.mem_cons_of_mem x hm))

theorem dropThroughChar_append {c : Char} {post : List Char} :
    ∀ {mid : List Char}, c ∉ mid →
      dropThroughChar c (mid ++ c :: post) = some post := by
  intro mid
  induction mid with
  | nil => intro _; rw [List.nil_append, dropThroughChar, if_pos rfl]
  | cons x xs ih =>
    intro h
    have hx : x ≠ c := fun he => h (he ▸ List.mem_cons_self x xs)
    rw [List.cons_append, dropThroughChar, if_neg hx]
    exact ih (fun hm => h (List.mem_cons_of_mem x hm))

theorem stripQuotesF_fuel_eq :
    ∀ {f g : Nat} {s : List Char}, s.length ≤ f → s.length ≤ g →
      stripQuotesF f s = stripQuotesF g s := by
  intro f
  induction f with
  | zero =>
    intro g s h1 _
    have hs : s = [] := List.eq_nil_of_length_eq_zero (Nat.le_zero.mp h1)
    subst hs
    cases g <;> rfl
  | succ f ih =>
    intro g s h1 h2
    cases g with
    | zero =>
      have hs : s = [] := List.eq_nil_of_length_eq_zero (Nat.le_zero.mp h2)
      subst hs
      rfl
    | succ g =>
      cases s with
      | nil => rfl
      | cons c rest =>
        simp only [List.length_cons, Nat.succ_le_succ_iff] at h1 h2
        by_cases hc : c ∈ quoteChars
        · cases hdt : dropThroughChar c rest with
          | some after =>
            have ha : after.length < rest.length := dropThroughChar_length hdt
            have e1 : stripQuotesF (f + 1) (c :: rest) = stripQuotesF f after := by
              simp [stripQuotesF, hc, hdt]
            have e2 : stripQuotesF (g + 1) (c :: rest) = stripQuotesF g after := by
              simp [stripQuotesF, hc, hdt]
            rw [e1, e2]
            exact ih (by omega) (by omega)
          | none =>
            have e1 : stripQuotesF (f + 1) (c :: rest) = c :: stripQuotesF f rest := by
              simp [stripQuotesF, hc, hdt]
            have e2 : stripQuotesF (g + 1) (c :: rest) = c :: stripQuotesF g rest := by
              simp [stripQuotesF, hc, hdt]
            rw [e1, e2]
            exact congrArg (c :: ·) (ih h1 h2)
        · have e1 : stripQuotesF (f + 1) (c :: rest) = c :: stripQuotesF f rest := by
            simp [stripQuotesF, hc]
          have e2 : stripQuotesF (g + 1) (c :: rest) = c :: stripQuotesF g rest := by
            simp [stripQuotesF, hc]
          rw [e1, e2]
          exact congrArg (c :: ·) (ih h1 h2)

theorem stripQuotes_nil : stripQuotes [] = [] := rfl

theorem stripQuotes_cons_of_not_quote {c : Char} {rest : List Char}
    (h : c ∉ quoteChars) :
    stripQuotes (c :: rest) = c :: stripQuotes rest := by
  show stripQuotesF (rest.length + 1) (c :: rest) = c :: stripQuotes rest
  simp [stripQuotesF, h, stripQuotes]

theorem stripQuotes_cons_closed {c : Char} {rest after : List Char}
    (hc : c ∈ quoteChars) (h : dropThroughChar c rest = some after) :
    stripQuotes (c :: rest) = stripQuotes after := by
  show stripQuotesF (rest.length + 1) (c :: rest) = stripQuotes after
  have e : stripQuotesF (rest.length + 1) (c :: rest) =
      stripQuotesF rest.length after := by
    simp [stripQuotesF, hc, h]
  rw [e]
  exact stripQuotesF_fuel_eq (Nat.le_of_lt (dropThroughChar_length h)) Nat.le.refl

theorem stripQuotes_cons_unclosed {c : Char} {rest : List Char}
    (hc : c ∈ quoteChars) (h : dropThroughChar c rest = none) :
    stripQuotes (c :: rest) = c :: stripQuotes rest := by
  show stripQuotesF (rest.length + 1) (c :: rest) = c :: stripQuotes rest
  simp [stripQuotesF, hc, h, stripQuotes]

theorem stripQuotesF_sublist :
    ∀ (f : Nat) (s : List Char), List.Sublist (stripQuotesF f s) s := by
  intro f
  induction f with
  | zero => intro s; exact List.Sublist.refl s
  | succ f ih =>
    intro s
    cases s with
    | nil => exact List.Sublist.refl []
    | cons c rest =>
      by_cases hc : c ∈ quoteChars
      · cases hdt : dropThroughChar c rest with
        | some after =>
          have e : stripQuotesF (f + 1) (c :: rest) = stripQuotesF f after := by
            simp [stripQuotesF, hc, hdt]
          rw [e]
          exact (ih after).trans
            ((dropThroughChar_sublist hdt).trans (List.sublist_cons_self c rest))
        | none =>
          have e : stripQuotesF (f + 1) (c :: rest) = c :: stripQuotesF f rest := by
            simp [stripQuotesF, hc, hdt]
          rw [e]
          exact List.Sublist.cons₂ c (ih rest)
      · have e : stripQuotesF (f + 1) (c :: rest) = c :: stripQuotesF f rest := by
          simp [stripQuotesF, hc]
        rw [e]
        exact List.Sublist.cons₂ c (ih rest)

theorem stripQuotes_sublist (s : List Char) :
    List.Sublist (stripQuotes s) s :=
  stripQuotesF_sublist s.length s

theorem stripOneF_eq_self {q : Char} :
    ∀ (f : Nat) {s : List Char}, q ∉ s → stripOneF q f s = s := by
  intro f
  induction f with
  | zero => intro s _; rfl
  | succ f ih =>
    intro s h
    cases s with
    | nil => rfl
    | cons c rest =>
      have hc : c ≠ q := fun he => h (he ▸ List.mem_cons_self c rest)
      have e : stripOneF q (f + 1) (c :: rest) = c :: stripOneF q f rest := by
        simp [stripOneF, hc]
      rw [e]
      exact congrArg (c :: ·) (ih (fun hm => h (List.mem_cons_of_mem c hm)))

theorem stripOne_eq_self {q : Char} {s : List Char} (h : q ∉ s) :
    stripOne q s = s :=
  stripOneF_eq_self s.length h

theorem stripQuotesF_eq_stripOneF {q : Char} (hq : q ∈ quoteChars) :
    ∀ (f : Nat) (s : List Char), (∀ c ∈ s, c ∈ quoteChars → c = q) →
      stripQuotesF f s = stripOneF q f s := by
  intro f
  induction f with
  | zero => intro s _; rfl
  | succ f ih =>
    intro s hall
    cases s with
    | nil => rfl
    | cons c rest =>
      by_cases hc : c ∈ quoteChars
      · have hcq : c = q := hall c (List.mem_cons_self c rest) hc
        subst hcq
        cases hdt : dropThroughChar c rest with
        | some after =>
          have e1 : stripQuotesF (f + 1) (c :: rest) = stripQuotesF f after := by
            simp [stripQuotesF, hc, hdt]
          have e2 : stripOneF c (f + 1) (c :: rest) = stripOneF c f after := by
            simp [stripOneF, hdt]
          rw [e1, e2]
          exact ih after (fun d hd hdq =>
            hall d (List.mem_cons_of_mem c ((dropThroughChar_sublist hdt).subset hd)) hdq)
        | none =>
          have e1 : stripQuotesF (f + 1) (c :: rest) = c :: stripQuotesF f rest := by
            simp [stripQuotesF, hc, hdt]
          have e2 : stripOneF c (f + 1) (c :: rest) = c :: stripOneF c f rest := by
            simp [stripOneF, hdt]
          rw [e1, e2]
          exact congrArg (c :: ·)
            (ih rest (fun d hd hdq => hall d (List.mem_cons_of_mem c hd) hdq))
      · have hcq : c ≠ q := fun he => hc (he ▸ hq)
        have e1 : stripQuotesF (f + 1) (c :: rest) = c :: stripQuotesF f rest := by
          simp [stripQuotesF, hc]
        have e2 : stripOneF q (f + 1) (c :: rest) = c :: stripOneF q f rest := by
          simp [stripOneF, hcq]
        rw [e1, e2]
        exact congrArg (c :: ·)
          (ih rest (fun d hd hdq => hall d (List.mem_cons_of_mem c hd) hdq))

theorem stripQuotes_eq_stripOne {q : Char} (hq : q ∈ quoteChars)
    (s : List Char) (hall : ∀ c ∈ s, c ∈ quoteChars → c = q) :
    stripQuotes s = stripOne q s :=
  stripQuotesF_eq_stripOneF hq s.length s hall

theorem stripQuotesF_append :
    ∀ (pre : List Char), (∀ c ∈ pre, c ∉ quoteChars) →
      ∀ (f : Nat) (rest : List Char),
        stripQuotesF (pre.length + f) (pre ++ rest) = pre ++ stripQuotesF f rest := by
  intro pre
  induction pre with
  | nil =>
    intro _ f rest
    rw [List.nil_append, List.length_nil, Nat.zero_add, List.nil_append]
  | cons c p ih =>
    intro h f rest
    have hc : c ∉ quoteChars := h c (List.mem_cons_self c p)
    have hlen : (c :: p).length + f = (p.length + f) + 1 := by
      simp only [List.length_cons]
      omega
    rw [hlen, List.cons_append]
    have e : stripQuotesF ((p.length + f) + 1) (c :: (p ++ rest)) =
        c :: stripQuotesF (p.length + f) (p ++ rest) := by
      simp [stripQuotesF, hc]
    rw [e, ih (fun d hd => h d (List.mem_cons_of_mem c hd)) f rest, List.cons_append]

theorem stripQuotes_append_of_no_quotes {pre rest : List Char}
    (h : ∀ c ∈ pre, c ∉ quoteChars) :
    stripQuotes (pre ++ rest) = pre ++ stripQuotes rest := by
  show stripQuotesF (pre ++ rest).length (pre ++ rest) = pre ++ stripQuotes rest
  rw [List.length_append]
  exact stripQuotesF_append pre h rest.length rest

theorem stripQuotes_eq_self_of_no_quotes {s : List Char}
    (h : ∀ c ∈ s, c ∉ quoteChars) : stripQuotes s = s := by
  have := @stripQuotes_append_of_no_quotes s [] h
  rwa [List.append_nil, stripQuotes_nil, List.append_nil] at this

/-! ## Claim C9 -/

/-- C9 (confirmed): for every line containing none of the three quote
characters (double quote, single quote, backtick), the Quote Stripper
returns the line unchanged. -/
theorem quote_free_line_unchanged (s : List Char)
    (h : ∀ c ∈ s, c ∉ quoteChars) : stripQuotes s = s :=
  stripQuotes_eq_self_of_no_quotes h

/-- Witness for C9 at the concrete line `echo hello`. -/
theorem quote_free_line_unchanged_witness :
    stripQuotes ("echo hello".data) = "echo hello".data :=
  quote_free_line_unchanged ("echo hello".data) (by decide)

/-! ## Claim C10 -/

/-- C10 (confirmed): the Quote Stripper's output is a subsequence of its
input — it only deletes characters, never inserts or reorders — and hence
is never longer than the input. -/
theorem strip_output_sublist (s : List Char) :
    List.Sublist (stripQuotes s) s ∧ (stripQuotes s).length ≤ s.length :=
  ⟨stripQuotes_sublist s, (stripQuotes_sublist s).length_le⟩

/-! ## Claim C2

The code strips all three delimiter types in one combined left-to-right
`re.sub` pass.  The specification describes it as one independent
non-overlapping maximal-match pass per delimiter type; the two disagree
when a quoted region of one type begins inside a region of another type,
as on `a'b"c'd"e`. -/

/-- Counterexample to C2 as stated: on the line `a'b"c'd"e` the combined
pass of the code removes `'b"c'` leaving `ad"e`, while independent
per-delimiter passes (double quote first) remove `"c'd"` leaving `a'be`. -/
theorem strip_independent_passes_counterexample :
    stripQuotes ['a', sqc, 'b', dqc, 'c', sqc, 'd', dqc, 'e'] ≠
      stripQuotesSpecIndependent ['a', sqc, 'b', dqc, 'c', sqc, 'd', dqc, 'e'] := by
  decide

/-- C2 (corrected): the three delimiter types are stripped in a single
combined left-to-right maximal-match pass.  (a) The earliest-starting
well-formed region of any type is removed — its interior may freely
contain quote characters of the other types — and scanning resumes after
it.  (b) An opening delimiter with no same-type closer is kept.  (c) The
specification's independent per-delimiter-type description holds on lines
whose quote characters are all of one delimiter type. -/
theorem strip_combined_pass :
    (∀ (pre mid post : List Char) (q : Char), q ∈ quoteChars →
      (∀ c ∈ pre, c ∉ quoteChars) → q ∉ mid →
      stripQuotes (pre ++ q :: (mid ++ q :: post)) = pre ++ stripQuotes post) ∧
    (∀ (pre rest : List Char) (q : Char), q ∈ quoteChars →
      (∀ c ∈ pre, c ∉ quoteChars) → q ∉ rest →
      stripQuotes (pre ++ q :: rest) = pre ++ q :: stripQuotes rest) ∧
    (∀ (s : List Char) (q : Char), q ∈ quoteChars →
      (∀ c ∈ s, c ∈ quoteChars → c = q) →
      stripQuotes s = stripQuotesSpecIndependent s) := by
  refine ⟨?_, ?_, ?_⟩
  · intro pre mid post q hq hpre hmid
    rw [stripQuotes_append_of_no_quotes hpre,
      stripQuotes_cons_closed hq (dropThroughChar_append hmid)]
  · intro pre rest q hq hpre hrest
    rw [stripQuotes_append_of_no_quotes hpre,
      stripQuotes_cons_unclosed hq (dropThroughChar_eq_none hrest)]
  · intro s q hq hall
    have hsq : stripQuotes s = stripOne q s := stripQuotes_eq_stripOne hq s hall
    have honly : ∀ r : Char, r ∈ quoteChars → r ≠ q → r ∉ stripQuotes s := by
      intro r hr hrq hmem
      exact hrq (hall r ((stripQuotes_sublist s).subset hmem) hr)
    have hd : q = dqc ∨ q = sqc ∨ q = btc := by
      simpa [quoteChars] using hq
    unfold stripQuotesSpecIndependent
    rcases hd with rfl | rfl | rfl
    · have h1 : stripOne dqc s = stripQuotes s := hsq.symm
      rw [h1, stripOne_eq_self (honly sqc (by decide) (by decide)),
        stripOne_eq_self (honly btc (by decide) (by decide))]
    · have h1 : stripOne dqc s = s :=
        stripOne_eq_self (fun hm => (by decide : dqc ≠ sqc)
          (hall dqc hm (by decide)))
      rw [h1, ← hsq, stripOne_eq_self (honly btc (by decide) (by decide))]
    · have h1 : stripOne dqc s = s :=
        stripOne_eq_self (fun hm => (by decide : dqc ≠ btc)
          (hall dqc hm (by decide)))
      have h2 : stripOne sqc s = s :=
        stripOne_eq_self (fun hm => (by decide : sqc ≠ btc)
          (hall sqc hm (by decide)))
      rw [h1, h2, ← hsq]

/-- Witness for the corrected C2, at concrete inputs: a double-quoted
region containing a single quote is removed whole; an unterminated quote
is kept; and a single-delimiter-type line agrees with the independent
description. -/
theorem strip_combined_pass_witness :
    stripQuotes ("x=".data ++ dqc :: (('a' :: sqc :: ['b']) ++ dqc :: "y".data)) =
      "x=".data ++ stripQuotes "y".data ∧
    stripQuotes ("x=".data ++ dqc :: "ab".data) =
      "x=".data ++ dqc :: stripQuotes "ab".data ∧
    stripQuotes (dqc :: 'a' :: dqc :: 'b' :: [dqc]) =
      stripQuotesSpecIndependent (dqc :: 'a' :: dqc :: 'b' :: [dqc]) :=
  ⟨strip_combined_pass.1 "x=".data ('a' :: sqc :: ['b']) "y".data dqc
      (by decide) (by decide) (by decide),
    strip_combined_pass.2.1 "x=".data "ab".data dqc
      (by decide) (by decide) (by decide),
    strip_combined_pass.2.2 (dqc :: 'a' :: dqc :: 'b' :: [dqc]) dqc
      (by decide) (by decide)⟩

/-! ## Lemmas about the per-line passes -/

theorem rawPassFindings_length_le (ps : List RiskPattern) (path : String)
    (n : Nat) (t : List Char) : (rawPassFindings ps path n t).length ≤ 1 := by
  unfold rawPassFindings
  cases ps.find? (fun p => searchCI p.sig t) with
  | none => exact Nat.zero_le 1
  | some p => exact Nat.le.refl

theorem dqPassFindings_length_le (ps : List RiskPattern) (path : String)
    (n : Nat) (t : List Char) : (dqPassFindings ps path n t).length ≤ 1 := by
  unfold dqPassFindings
  cases ps.find? (fun p => searchCI p.sig (stripQuotes t)) with
  | none => exact Nat.zero_le 1
  | some p => exact Nat.le.refl

theorem mem_rawPassFindings {ps : List RiskPattern} {path : String} {n : Nat}
    {t : List Char} {f : Finding} (hf : f ∈ rawPassFindings ps path n t) :
    ∃ p, ps.find? (fun p => searchCI p.sig t) = some p ∧
      f = ⟨path, n, p.label, truncateContent t⟩ := by
  unfold rawPassFindings at hf
  cases hfind : ps.find? (fun p => searchCI p.sig t) with
  | none => rw [hfind] at hf; simp at hf
  | some p =>
    rw [hfind] at hf
    exact ⟨p, rfl, List.mem_singleton.mp hf⟩

theorem mem_dqPassFindings {ps : List RiskPattern} {path : String} {n : Nat}
    {t : List Char} {f : Finding} (hf : f ∈ dqPassFindings ps path n t) :
    ∃ p, ps.find? (fun p => searchCI p.sig (stripQuotes t)) = some p ∧
      f = ⟨path, n, p.label ++ " (de-quoted)", truncateContent t⟩ := by
  unfold dqPassFindings at hf
  cases hfind : ps.find? (fun p => searchCI p.sig (stripQuotes t)) with
  | none => rw [hfind] at hf; simp at hf
  | some p =>
    rw [hfind] at hf
    exact ⟨p, rfl, List.mem_singleton.mp hf⟩

theorem mem_lineFindings {ps : List RiskPattern} {path : String} {n : Nat}
    {l : List Char} {f : Finding} (hf : f ∈ lineFindings ps path n l) :
    f ∈ rawPassFindings ps path n (pyStrip l) ∨
      f ∈ dqPassFindings ps path n (pyStrip l) := by
  unfold lineFindings at hf
  by_cases hcom : isComment (pyStrip l)
  · simp [hcom] at hf
  · simp only [hcom, if_false, Bool.false_eq_true] at hf
    exact List.mem_append.mp hf

theorem lineFindings_content {ps : List RiskPattern} {path : String} {n : Nat}
    {l : List Char} {f : Finding} (hf : f ∈ lineFindings ps path n l) :
    f.content = truncateContent (pyStrip l) := by
  cases mem_lineFindings hf with
  | inl h => obtain ⟨p, _, rfl⟩ := mem_rawPassFindings h; rfl
  | inr h => obtain ⟨p, _, rfl⟩ := mem_dqPassFindings h; rfl

theorem lineFindings_line_eq {ps : List RiskPattern} {path : String} {n : Nat}
    {l : List Char} {f : Finding} (hf : f ∈ lineFindings ps path n l) :
    f.line = n := by
  cases mem_lineFindings hf with
  | inl h => obtain ⟨p, _, rfl⟩ := mem_rawPassFindings h; rfl
  | inr h => obtain ⟨p, _, rfl⟩ := mem_dqPassFindings h; rfl

theorem lineFindings_length_le (ps : List RiskPattern) (path : String)
    (n : Nat) (l : List Char) : (lineFindings ps path n l).length ≤ 2 := by
  unfold lineFindings
  by_cases hcom : isComment (pyStrip l)
  · simp [hcom]
  · simp only [hcom, if_false, Bool.false_eq_true, List.length_append]
    have h1 := rawPassFindings_length_le ps path n (pyStrip l)
    have h2 := dqPassFindings_length_le ps path n (pyStrip l)
    omega

theorem scanLines_take_prefix (ps : List RiskPattern) (path : String) :
    ∀ (lines : List (List Char)) (k start : Nat),
      ∃ t, scanLines ps path (lines.take k) start ++ t =
        scanLines ps path lines start := by
  intro lines
  induction lines with
  | nil => intro k start; exact ⟨[], by simp [scanLines]⟩
  | cons l rest ih =>
    intro k start
    cases k with
    | zero =>
      exact ⟨scanLines ps path (l :: rest) start, by simp [scanLines]⟩
    | succ k =>
      obtain ⟨t, ht⟩ := ih k (start + 1)
      refine ⟨t, ?_⟩
      rw [List.take_succ_cons]
      simp only [scanLines]
      rw [List.append_assoc, ht]

/-! ## Claim C1

The `matches` list of `scan_file` is accumulated inside the `try`; the
`except` arm only prints, and `return matches` then returns whatever had
been accumulated.  A read failure after some lines were processed
therefore yields the findings of those lines, not the empty sequence. -/

/-- Counterexample to C1 as stated: a file whose first line is
`rm -rf /tmp`, with the read failing after that line was processed,
yields a non-empty sequence of Findings. -/
theorem read_error_zero_findings_counterexample :
    scanFile RISKY_PATTERNS "f.py"
      (ReadOutcome.failAt ["rm -rf /tmp".data] 1) ≠ [] := by
  decide

/-- C1 (corrected): if reading fails after `k` lines were processed,
`scan_file` returns the findings of exactly those `k` lines — a prefix of
the findings of a full scan of the file, possibly non-empty; the result
is empty precisely in the case the failure struck before any line was
read. -/
theorem read_error_partial_findings (ps : List RiskPattern) (path : String)
    (lines : List (List Char)) (k : Nat) :
    scanFile ps path (ReadOutcome.failAt lines k) =
      scanFileLines ps path (lines.take k) ∧
    (∃ t, scanFile ps path (ReadOutcome.failAt lines k) ++ t =
      scanFile ps path (ReadOutcome.ok lines)) ∧
    scanFile ps path (ReadOutcome.failAt lines 0) = [] := by
  refine ⟨rfl, ?_, ?_⟩
  · exact scanLines_take_prefix ps path lines k 1
  · show scanFileLines ps path (lines.take 0) = []
    rw [List.take_zero]
    rfl

/-! ## Claim C5

Line 48 skips a line only when it matches the comment pattern; the empty
trimmed line does not, so empty lines run through both passes.  None of
the shipped `RISKY_PATTERNS` matches the empty string, so empty lines
still yield nothing for the real catalog — but not for every catalog. -/

/-- Counterexample to C5 as stated: with a catalog holding one pattern
that matches the empty string, an empty line yields Findings. -/
theorem comment_empty_skip_counterexample :
    lineFindings [⟨"", Regex.eps⟩] "f" 1 [] ≠ [] := by
  decide

/-- C5 (corrected): a line whose trimmed text is a pure comment yields
zero Findings for every catalog; a line whose trimmed text is empty is
not skipped, but yields zero Findings for the shipped `RISKY_PATTERNS`
catalog, none of whose patterns matches the empty string. -/
theorem comment_and_empty_lines :
    (∀ (ps : List RiskPattern) (path : String) (n : Nat) (l : List Char),
      isComment (pyStrip l) = true → lineFindings ps path n l = []) ∧
    (∀ (path : String) (n : Nat) (l : List Char),
      pyStrip l = [] → lineFindings RISKY_PATTERNS path n l = []) := by
  constructor
  · intro ps path n l h
    unfold lineFindings
    simp [h]
  · intro path n l h
    have hraw : RISKY_PATTERNS.find?
        (fun p => searchCI p.sig ([] : List Char)) = none := by decide
    have hcom : isComment ([] : List Char) = false := rfl
    have hsq : stripQuotes ([] : List Char) = [] := rfl
    unfold lineFindings rawPassFindings dqPassFindings
    rw [h]
    simp [hcom, hsq, hraw]

/-- Witness for the corrected C5: a pure comment line and a
whitespace-only line both yield zero Findings under the real catalog. -/
theorem comment_and_empty_lines_witness :
    lineFindings RISKY_PATTERNS "g.py" 3 ("# rm -rf /tmp".data) = [] ∧
    lineFindings RISKY_PATTERNS "g.py" 4 ("   ".data) = [] :=
  ⟨comment_and_empty_lines.1 RISKY_PATTERNS "g.py" 3 ("# rm -rf /tmp".data)
      (by decide),
    comment_and_empty_lines.2 "g.py" 4 ("   ".data) (by decide)⟩

/-! ## Claim C7 -/

/-- C7 (confirmed): every Finding's content is the trimmed source line,
truncated to its first 100 characters plus a 3-character ellipsis marker
(103 characters in all) exactly when the trimmed line exceeds 100
characters, and equal to the trimmed line otherwise. -/
theorem content_truncation (ps : List RiskPattern) (path : String) (n : Nat)
    (l : List Char) (f : Finding) (hf : f ∈ lineFindings ps path n l) :
    ((pyStrip l).length > 100 →
      f.content = (pyStrip l).take 100 ++ ("...".data) ∧
      f.content.length = 103) ∧
    ((pyStrip l).length ≤ 100 → f.content = pyStrip l) := by
  have hc := lineFindings_content hf
  constructor
  · intro hlen
    rw [hc, truncateContent, if_pos hlen]
    refine ⟨rfl, ?_⟩
    rw [List.length_append, List.length_take]
    have : min 100 (pyStrip l).length = 100 := Nat.min_eq_left (Nat.le_of_lt hlen)
    rw [this]
    decide
  · intro hlen
    rw [hc, truncateContent, if_neg (by omega)]

/-- Witness for C7: a 107-character line matching the destructive-delete
pattern is reported with 103 characters of content, and a short line is
reported verbatim. -/
theorem content_truncation_witness :
    ((Finding.mk "f" 1 "rm\\s+-rf"
        (("rm -rf ".data ++ List.replicate 100 'x').take 100 ++ ("...".data))).content =
      (pyStrip ("rm -rf ".data ++ List.replicate 100 'x')).take 100 ++ ("...".data) ∧
     (Finding.mk "f" 1 "rm\\s+-rf"
        (("rm -rf ".data ++ List.replicate 100 'x').take 100 ++ ("...".data))).content.length = 103) ∧
    (Finding.mk "f" 2 "rm\\s+-rf" ("rm -rf /tmp".data)).content =
      pyStrip ("rm -rf /tmp".data) :=
  ⟨(content_truncation RISKY_PATTERNS "f" 1
      ("rm -rf ".data ++ List.replicate 100 'x') _ (by decide)).1 (by decide),
    (content_truncation RISKY_PATTERNS "f" 2 ("rm -rf /tmp".data) _ (by decide)).2
      (by decide)⟩

/-! ## Claim C8 -/

/-- C8 (confirmed): every Finding emitted by the de-quoted pass carries
the matching pattern's label with the suffix `" (de-quoted)"` appended,
and its content is derived from the original trimmed line — not the
quote-stripped text — truncated exactly as in the raw pass. -/
theorem dequoted_label_and_content (ps : List RiskPattern) (path : String)
    (n : Nat) (t : List Char) (f : Finding)
    (hf : f ∈ dqPassFindings ps path n t) :
    ∃ p, p ∈ ps ∧ searchCI p.sig (stripQuotes t) = true ∧
      f.pattern = p.label ++ " (de-quoted)" ∧ f.content = truncateContent t := by
  obtain ⟨p, hfind, rfl⟩ := mem_dqPassFindings hf
  refine ⟨p, List.mem_of_find?_eq_some hfind, ?_, rfl, rfl⟩
  simpa using List.find?_some hfind

/-- Witness for C8 at the line `curl "a" | bash` — its de-quoted pass
strips the double-quoted region, still matches the download-and-execute
pattern, and the reported content is the whole original line. -/
theorem dequoted_label_and_content_witness :
    ∃ p, p ∈ RISKY_PATTERNS ∧
      searchCI p.sig (stripQuotes ("curl \"a\" | bash".data)) = true ∧
      (Finding.mk "f" 1 "curl\\s+.*\\|.*(bash|sh) (de-quoted)"
        ("curl \"a\" | bash".data)).pattern = p.label ++ " (de-quoted)" ∧
      (Finding.mk "f" 1 "curl\\s+.*\\|.*(bash|sh) (de-quoted)"
        ("curl \"a\" | bash".data)).content =
        truncateContent ("curl \"a\" | bash".data) :=
  dequoted_label_and_content RISKY_PATTERNS "f" 1 ("curl \"a\" | bash".data) _
    (by decide)

/-! ## Claim C4 -/

theorem find?_first_index {α : Type} (p : α → Bool) :
    ∀ (l : List α) (i : Nat) (hi : i < l.length), p (l.get ⟨i, hi⟩) = true →
      ∃ k, ∃ hk : k < l.length, k ≤ i ∧
        (∀ m (hm : m < l.length), m < k → p (l.get ⟨m, hm⟩) = false) ∧
        p (l.get ⟨k, hk⟩) = true ∧
        l.find? p = some (l.get ⟨k, hk⟩) := by
  intro l
  induction l with
  | nil => intro i hi; exact absurd hi (Nat.not_lt_zero i)
  | cons a l ih =>
    intro i hi hp
    by_cases ha : p a = true
    · refine ⟨0, Nat.succ_pos _, Nat.zero_le _, ?_, ha, ?_⟩
      · intro m hm hmk
        exact absurd hmk (Nat.not_lt_zero m)
      · rw [List.find?_cons_of_pos l ha]
        rfl
    · cases i with
      | zero => exact absurd hp ha
      | succ i =>
        have hi' : i < l.length := Nat.lt_of_succ_lt_succ hi
        have hp' : p (l.get ⟨i, hi'⟩) = true := hp
        obtain ⟨k, hk, hki, hmin, hpk, hfind⟩ := ih i hi' hp'
        refine ⟨k + 1, Nat.succ_lt_succ hk, Nat.succ_le_succ hki, ?_, hpk, ?_⟩
        · intro m hm hmk
          cases m with
          | zero => exact Bool.eq_false_iff.mpr ha
          | succ m =>
            exact hmin m (Nat.lt_of_succ_lt_succ hm) (Nat.lt_of_succ_lt_succ hmk)
        · rw [List.find?_cons_of_neg l ha, hfind]
          rfl

/-- C4 (confirmed): for every non-comment text and each pass
independently, matching is first-match-only — when two catalog patterns
(at positions `i < j`) both match the text that pass examines, the pass
emits exactly one Finding, labelled by the earliest matching pattern in
catalog order. -/
theorem first_match_only (ps : List RiskPattern) (path : String) (n : Nat)
    (t : List Char) (i j : Nat) (hij : i < j) (hj : j < ps.length) :
    (searchCI (ps.get ⟨i, Nat.lt_trans hij hj⟩).sig t = true →
     searchCI (ps.get ⟨j, hj⟩).sig t = true →
      ∃ k, ∃ hk : k < ps.length,
        (∀ m (hm : m < ps.length), m < k →
          searchCI (ps.get ⟨m, hm⟩).sig t = false) ∧
        searchCI (ps.get ⟨k, hk⟩).sig t = true ∧
        rawPassFindings ps path n t =
          [⟨path, n, (ps.get ⟨k, hk⟩).label, truncateContent t⟩]) ∧
    (searchCI (ps.get ⟨i, Nat.lt_trans hij hj⟩).sig (stripQuotes t) = true →
     searchCI (ps.get ⟨j, hj⟩).sig (stripQuotes t) = true →
      ∃ k, ∃ hk : k < ps.length,
        (∀ m (hm : m < ps.length), m < k →
          searchCI (ps.get ⟨m, hm⟩).sig (stripQuotes t) = false) ∧
        searchCI (ps.get ⟨k, hk⟩).sig (stripQuotes t) = true ∧
        dqPassFindings ps path n t =
          [⟨path, n, (ps.get ⟨k, hk⟩).label ++ " (de-quoted)",
            truncateContent t⟩]) := by
  constructor
  · intro hi _
    obtain ⟨k, hk, _, hmin, hpk, hfind⟩ :=
      find?_first_index (fun p => searchCI p.sig t) ps i (Nat.lt_trans hij hj) hi
    refine ⟨k, hk, hmin, hpk, ?_⟩
    unfold rawPassFindings
    rw [hfind]
  · intro hi _
    obtain ⟨k, hk, _, hmin, hpk, hfind⟩ :=
      find?_first_index (fun p => searchCI p.sig (stripQuotes t)) ps i
        (Nat.lt_trans hij hj) hi
    refine ⟨k, hk, hmin, hpk, ?_⟩
    unfold dqPassFindings
    rw [hfind]

/-- Witness for C4 at the quote-free line `sudo rm -rf /x`, which matches
both the destructive-delete pattern (index 0) and the
elevated-privilege pattern (index 3) in both passes. -/
theorem first_match_only_witness :
    (∃ k, ∃ hk : k < RISKY_PATTERNS.length,
      (∀ m (hm : m < RISKY_PATTERNS.length), m < k →
        searchCI (RISKY_PATTERNS.get ⟨m, hm⟩).sig ("sudo rm -rf /x".data) = false) ∧
      searchCI (RISKY_PATTERNS.get ⟨k, hk⟩).sig ("sudo rm -rf /x".data) = true ∧
      rawPassFindings RISKY_PATTERNS "f" 1 ("sudo rm -rf /x".data) =
        [⟨"f", 1, (RISKY_PATTERNS.get ⟨k, hk⟩).label,
          truncateContent ("sudo rm -rf /x".data)⟩]) ∧
    (∃ k, ∃ hk : k < RISKY_PATTERNS.length,
      (∀ m (hm : m < RISKY_PATTERNS.length), m < k →
        searchCI (RISKY_PATTERNS.get ⟨m, hm⟩).sig
          (stripQuotes ("sudo rm -rf /x".data)) = false) ∧
      searchCI (RISKY_PATTERNS.get ⟨k, hk⟩).sig
        (stripQuotes ("sudo rm -rf /x".data)) = true ∧
      dqPassFindings RISKY_PATTERNS "f" 1 ("sudo rm -rf /x".data) =
        [⟨"f", 1, (RISKY_PATTERNS.get ⟨k, hk⟩).label ++ " (de-quoted)",
          truncateContent ("sudo rm -rf /x".data)⟩]) :=
  ⟨(first_match_only RISKY_PATTERNS "f" 1 ("sudo rm -rf /x".data) 0 3
      (by decide) (by decide)).1 (by decide) (by decide),
    (first_match_only RISKY_PATTERNS "f" 1 ("sudo rm -rf /x".data) 0 3
      (by decide) (by decide)).2 (by decide) (by decide)⟩

/-! ## Claim C6 -/

theorem findingsAtLine_lineFindings_self (ps : List RiskPattern)
    (path : String) (n : Nat) (l : List Char) :
    findingsAtLine (lineFindings ps path n l) n = lineFindings ps path n l := by
  unfold findingsAtLine
  apply List.filter_eq_self.mpr
  intro f hf
  simp [lineFindings_line_eq hf]

theorem findingsAtLine_lineFindings_ne {m n : Nat} (hne : m ≠ n)
    (ps : List RiskPattern) (path : String) (l : List Char) :
    findingsAtLine (lineFindings ps path m l) n = [] := by
  unfold findingsAtLine
  rw [List.filter_eq_nil_iff]
  intro f hf
  simpa [lineFindings_line_eq hf] using hne

theorem findingsAtLine_scanLines (ps : List RiskPattern) (path : String) :
    ∀ (ls : List (List Char)) (start n : Nat),
      findingsAtLine (scanLines ps path ls start) n =
        if start ≤ n then
          match ls.get? (n - start) with
          | some l => lineFindings ps path n l
          | none => []
        else [] := by
  intro ls
  induction ls with
  | nil =>
    intro start n
    show findingsAtLine [] n = _
    simp [findingsAtLine]
  | cons l rest ih =>
    intro start n
    have hsplit : findingsAtLine (scanLines ps path (l :: rest) start) n =
        findingsAtLine (lineFindings ps path start l) n ++
        findingsAtLine (scanLines ps path rest (start + 1)) n := by
      simp only [scanLines, findingsAtLine, List.filter_append]
    rw [hsplit, ih (start + 1) n]
    rcases Nat.lt_trichotomy n start with hlt | heq | hgt
    · rw [findingsAtLine_lineFindings_ne (by omega) ps path l,
        if_neg (by omega), if_neg (by omega)]
      rfl
    · subst heq
      rw [findingsAtLine_lineFindings_self, if_neg (by omega), if_pos (by omega),
        List.append_nil]
      have h0 : n - n = 0 := by omega
      rw [h0]
      rfl
    · rw [findingsAtLine_lineFindings_ne (by omega) ps path l,
        if_pos (by omega), if_pos (by omega), List.nil_append]
      have hsub : n - start = (n - (start + 1)) + 1 := by omega
      rw [hsub]
      rfl

/-- C6 (confirmed): for every scanned file and line number, at most two
Findings carry that line number — at most one from the raw pass and at
most one from the de-quoted pass — and the findings of a line appear as
the raw-pass finding followed by the de-quoted-pass finding. -/
theorem at_most_two_findings_per_line (ps : List RiskPattern) (path : String)
    (lines : List (List Char)) (n : Nat) :
    (findingsAtLine (scanFileLines ps path lines) n).length ≤ 2 ∧
    (∀ t : List Char, (rawPassFindings ps path n t).length ≤ 1 ∧
      (dqPassFindings ps path n t).length ≤ 1) ∧
    (∀ i, ∀ hi : i < lines.length, n = i + 1 →
      findingsAtLine (scanFileLines ps path lines) n =
        if isComment (pyStrip (lines.get ⟨i, hi⟩)) = true then []
        else rawPassFindings ps path n (pyStrip (lines.get ⟨i, hi⟩)) ++
          dqPassFindings ps path n (pyStrip (lines.get ⟨i, hi⟩))) := by
  refine ⟨?_, fun t => ⟨rawPassFindings_length_le ps path n t,
    dqPassFindings_length_le ps path n t⟩, ?_⟩
  · show (findingsAtLine (scanLines ps path lines 1) n).length ≤ 2
    rw [findingsAtLine_scanLines]
    by_cases h1 : 1 ≤ n
    · rw [if_pos h1]
      cases hg : lines.get? (n - 1) with
      | none => exact Nat.zero_le 2
      | some l => exact lineFindings_length_le ps path n l
    · rw [if_neg h1]
      exact Nat.zero_le 2
  · intro i hi hn
    show findingsAtLine (scanLines ps path lines 1) n = _
    rw [findingsAtLine_scanLines, if_pos (by omega)]
    have hg : lines.get? (n - 1) = some (lines.get ⟨i, hi⟩) := by
      have hsub : n - 1 = i := by omega
      rw [hsub]
      exact List.get?_eq_get hi
    rw [hg]
    show lineFindings ps path n (lines.get ⟨i, hi⟩) = _
    simp only [lineFindings]

/-- Witness for C6 on a one-line file matching the destructive-delete
pattern in both passes. -/
theorem at_most_two_findings_per_line_witness :
    (findingsAtLine (scanFileLines RISKY_PATTERNS "f" ["rm -rf /x".data]) 1).length ≤ 2 ∧
    findingsAtLine (scanFileLines RISKY_PATTERNS "f" ["rm -rf /x".data]) 1 =
      (if isComment (pyStrip (["rm -rf /x".data].get ⟨0, Nat.zero_lt_one⟩)) = true then []
       else rawPassFindings RISKY_PATTERNS "f" 1
          (pyStrip (["rm -rf /x".data].get ⟨0, Nat.zero_lt_one⟩)) ++
        dqPassFindings RISKY_PATTERNS "f" 1
          (pyStrip (["rm -rf /x".data].get ⟨0, Nat.zero_lt_one⟩))) :=
  ⟨(at_most_two_findings_per_line RISKY_PATTERNS "f" ["rm -rf /x".data] 1).1,
    (at_most_two_findings_per_line RISKY_PATTERNS "f" ["rm -rf /x".data] 1).2.2
      0 Nat.zero_lt_one rfl⟩

/-! ## Claim C3 -/

/-- C3 (confirmed): for a line that is exactly one well-formed quoted
region (opener and closer of one delimiter type, no quote characters
outside the region) whose outside parts match no catalog pattern, the
de-quoted pass yields zero Findings; and concretely the line
`cmd = "curl http://x | bash"` yields exactly one raw-pass Finding (the
download-and-execute pattern matches inside the quotes) and zero
de-quoted-pass Findings. -/
theorem quoted_region_dequoted_silent (ps : List RiskPattern) (path : String)
    (n : Nat) (pre mid post : List Char) (q : Char)
    (hq : q ∈ quoteChars) (hpre : ∀ c ∈ pre, c ∉ quoteChars)
    (hmid : q ∉ mid) (hpost : ∀ c ∈ post, c ∉ quoteChars)
    (hsafe : ∀ p ∈ ps, searchCI p.sig (pre ++ post) = false) :
    dqPassFindings ps path n (pre ++ q :: (mid ++ q :: post)) = [] ∧
    lineFindings RISKY_PATTERNS "f.py" 1 ("cmd = \"curl http://x | bash\"".data) =
      [⟨"f.py", 1, "curl\\s+.*\\|.*(bash|sh)",
        "cmd = \"curl http://x | bash\"".data⟩] := by
  constructor
  · have hstrip : stripQuotes (pre ++ q :: (mid ++ q :: post)) = pre ++ post := by
      rw [stripQuotes_append_of_no_quotes hpre,
        stripQuotes_cons_closed hq (dropThroughChar_append hmid),
        stripQuotes_eq_self_of_no_quotes hpost]
    have hnone : ps.find? (fun p => searchCI p.sig (pre ++ post)) = none :=
      List.find?_eq_none.mpr (fun p hp => by simp [hsafe p hp])
    unfold dqPassFindings
    rw [hstrip, hnone]
  · decide

/-- Witness for C3: the concrete decomposition of
`cmd = "curl http://x | bash"` into prefix `cmd = `, a double-quoted
region and an empty suffix satisfies every hypothesis, so its de-quoted
pass is silent. -/
theorem quoted_region_dequoted_silent_witness :
    dqPassFindings RISKY_PATTERNS "f.py" 1
      ("cmd = ".data ++ dqc :: ("curl http://x | bash".data ++ dqc :: [])) = [] :=
  (quoted_region_dequoted_silent RISKY_PATTERNS "f.py" 1 "cmd = ".data
    "curl http://x | bash".data [] dqc (by decide) (by decide) (by decide)
    (by decide) (by decide)).1

end Scriptsnoop
